import Mathlib

/-!
Shallow embedding of `fractran.py` (chigozienri/fractran): the prime
factorizer `f_int.factorize`, the FRACTRAN execution engine
(`FractionGame.__init__`, `run_step`, `run`), the register derivation
`get_registers`, and the code synthesizer `python_equivalent`.

Python dictionaries are modelled as insertion-ordered association lists
with unique keys (updates rewrite the first matching entry, inserts
append).  Python integers are `Int` (`Nat` where the source only ever
sees non-negative values).  Python exceptions are modelled with
`Except`.
-/

/-- `d[k] += c` when `k` is present, `d[k] = c` otherwise: the two
branches of `factorize`'s `if not i in factors` update. -/
def dictAddCount : List (Nat × Nat) → Nat → Nat → List (Nat × Nat)
  | [], k, c => [(k, c)]
  | kv :: rest, k, c =>
    if kv.1 = k then (kv.1, kv.2 + c) :: rest else kv :: dictAddCount rest k c

/-- `d[k] = v`: overwrite the first matching entry or append. -/
def dictSet : List (Nat × Nat) → Nat → Nat → List (Nat × Nat)
  | [], k, v => [(k, v)]
  | kv :: rest, k, v =>
    if kv.1 = k then (kv.1, v) :: rest else kv :: dictSet rest k v

/-- `d.keys()` in insertion order. -/
def dictKeys (d : List (Nat × Nat)) : List Nat := d.map Prod.fst

/-- `d[k]` with a default for absent keys (lookups in the source only
happen on present keys). -/
def dictGetD : List (Nat × Nat) → Nat → Nat → Nat
  | [], _, dflt => dflt
  | kv :: rest, k, dflt => if kv.1 = k then kv.2 else dictGetD rest k dflt

/-- The integer represented by a factor dictionary: the product of
`prime ^ exponent` over its entries. -/
def prodF (d : List (Nat × Nat)) : Nat := (d.map fun kv => kv.1 ^ kv.2).prod

/-- Largest `k ≤ c` with `k * k ≤ n` (and `0` when there is none):
downward search so that the definition evaluates by kernel reduction. -/
def isqrtAux : Nat → Nat → Nat
  | 0, _ => 0
  | c + 1, n => if (c + 1) * (c + 1) ≤ n then c + 1 else isqrtAux c n

/-- `int(a**0.5)`, the scan bound of `factorize`: the integer square
root (`isqrt_eq_sqrt` below checks it against `Nat.sqrt`). -/
def isqrt (n : Nat) : Nat := isqrtAux n n

/-- The inner `while a % i == 0: ... a //= i` loop of `factorize`,
returning the multiplicity of `i` and the reduced value.  The fuel
argument bounds the iteration count: each pass divides `a` by `i ≥ 2`,
so `a` itself is enough fuel. -/
def divideOutAux (i : Nat) : Nat → Nat → Nat × Nat
  | 0, a => (0, a)
  | fuel + 1, a =>
    if 2 ≤ i ∧ 0 < a ∧ a % i = 0 then
      let r := divideOutAux i fuel (a / i)
      (r.1 + 1, r.2)
    else (0, a)

/-- `while a % i == 0` on value `a`, with fuel `a`. -/
def divideOut (i a : Nat) : Nat × Nat := divideOutAux i a a

/-- The `for i in range(2, int(a**0.5) + 1)` loop of `factorize`:
`count` iterations remain, the current candidate divisor is `i`, the
current reduced value is `a`, the accumulated dictionary is `factors`.
Returns the final reduced value and dictionary. -/
def factorizeAux : Nat → Nat → Nat → List (Nat × Nat) → Nat × List (Nat × Nat)
  | 0, _, a, factors => (a, factors)
  | count + 1, i, a, factors =>
    let r := divideOut i a
    let factors' := if r.1 = 0 then factors else dictAddCount factors i r.1
    factorizeAux count (i + 1) r.2 factors'

/-- The body of `f_int.factorize` with its scan bound as an explicit
parameter: `range(2, bound + 1)` has `bound - 1` elements, and a
residual value `> 1` after the scan is recorded with multiplicity 1.
The source computes the bound as the float expression `int(a**0.5)`,
which equals the exact integer square root for moderate `a` but, in
CPython double arithmetic, can come out one below it for very large `a`
(for example at `a = p * (p + 2)` with the twin primes
`p = 38375638528746689`, where `int(a**0.5) = p - 1`); then the scan
misses a prime factor and the residual recorded is composite.
`factorizeWith_undershoot` below proves this behaviour of the
algorithm whenever the bound falls below the least prime factor. -/
def factorizeWith (bound a : Nat) : List (Nat × Nat) :=
  let r := factorizeAux (bound - 1) 2 a []
  if 1 < r.1 then dictAddCount r.2 r.1 1 else r.2

/-- `f_int.factorize` on a non-negative integer, with the float bound
`int(a**0.5)` idealized to the exact integer square root `isqrt a`.
The claims settled against this definition (the round-trip law, the
scan and chain structure) do not depend on the bound; the key-primality
claims, which do, are reported against `factorizeWith` instead. -/
def factorize (a : Nat) : List (Nat × Nat) := factorizeWith (isqrt a) a

/-- `f_int.factorize` on a Python `int`: a negative argument makes
`a**0.5` a complex number and `int(...)` raise a `TypeError`. -/
def factorizeZ (n : Int) : Except Unit (List (Nat × Nat)) :=
  if n < 0 then .error () else .ok (factorize n.toNat)

-- Sanity checks that the embedding evaluates as the Python does:
example : factorize 12 = [(2, 2), (3, 1)] := by decide
example : factorize 0 = [] := by decide
example : factorize 1 = [] := by decide
example : factorize 97 = [(97, 1)] := by decide

theorem isqrtAux_sq_le (c n : Nat) : isqrtAux c n * isqrtAux c n ≤ n := by
  induction c with
  | zero => simp [isqrtAux]
  | succ c ih =>
    unfold isqrtAux
    split
    · assumption
    · exact ih

theorem isqrtAux_le (c n : Nat) : isqrtAux c n ≤ c := by
  induction c with
  | zero => simp [isqrtAux]
  | succ c ih =>
    unfold isqrtAux
    split
    · exact Nat.le_refl _
    · exact Nat.le_succ_of_le ih

theorem le_isqrtAux (c n k : Nat) (hk : k ≤ c) (h : k * k ≤ n) :
    k ≤ isqrtAux c n := by
  induction c with
  | zero => omega
  | succ c ih =>
    unfold isqrtAux
    by_cases hc : (c + 1) * (c + 1) ≤ n
    · simp only [if_pos hc]; exact hk
    · simp only [if_neg hc]
      rcases Nat.lt_or_ge k (c + 1) with hlt | hge
      · exact ih (by omega)
      · have hk1 : k = c + 1 := Nat.le_antisymm hk hge
        exact absurd (hk1 ▸ h) hc

theorem le_isqrt {n k : Nat} (h : k * k ≤ n) : k ≤ isqrt n := by
  have hk : k ≤ n := by nlinarith
  exact le_isqrtAux n n k hk h

theorem isqrt_sq_le (n : Nat) : isqrt n * isqrt n ≤ n := isqrtAux_sq_le n n

theorem isqrt_eq_sqrt (n : Nat) : isqrt n = Nat.sqrt n := by
  refine Nat.le_antisymm (Nat.le_sqrt.mpr (isqrt_sq_le n)) (le_isqrt (Nat.sqrt_le n))

/-- `FractionGame`: the program `self.f`, the trace `self.N`, and the
parallel transition-index list `self.transitions`.  (`self.registers`
is the derived value `get_registers f`, computed below.) -/
structure FractionGame where
  f : List (Int × Int)
  N : List Int
  transitions : List Nat
deriving DecidableEq, Repr

/-- `self.N[-1]`.  The constructor makes `N` the one-element list
`[N_0]` and no operation ever shortens it, so the default for an empty
list is never observed. -/
def lastEntry (N : List Int) : Int := N.getLastD 0

/-- The `for i, (numerator, denominator) in enumerate(self.f)` scan of
`run_step`: the first fraction whose divisibility test passes yields
`some (next value, index)`; `none` when no test passes; an error when a
zero denominator is reached, as `%` then raises `ZeroDivisionError`.
On a nonzero denominator, Python's `%` test agrees with `Int.emod = 0`
(both say `den ∣ num * cur`), and `//` on an exact multiple is the
exact quotient, so `Int` division conventions coincide. -/
def scanStep : List (Int × Int) → Int → Except Unit (Option (Int × Nat))
  | [], _ => .ok none
  | (num, den) :: rest, cur =>
    if den = 0 then .error ()
    else if num * cur % den = 0 then .ok (some (num * cur / den, 0))
    else
      match scanStep rest cur with
      | .error e => .error e
      | .ok none => .ok none
      | .ok (some (v, i)) => .ok (some (v, i + 1))

/-- `FractionGame.run_step` (verbosity only prints and is dropped):
append the first applicable fraction's product and record its index,
or append `0` when no fraction applies. -/
def run_step (g : FractionGame) : Except Unit FractionGame :=
  match scanStep g.f (lastEntry g.N) with
  | .error e => .error e
  | .ok (some (v, i)) =>
      .ok { g with N := g.N ++ [v], transitions := g.transitions ++ [i] }
  | .ok none => .ok { g with N := g.N ++ [0] }

theorem run_step_length {g g' : FractionGame} (h : run_step g = .ok g') :
    g'.N.length = g.N.length + 1 := by
  unfold run_step at h
  split at h
  · exact absurd h (by simp)
  · cases h
    simp
  · cases h
    simp

/-- Lines 149-150 of `run`: `if N_0: self.N = [N_0]`.  `None` and `0`
are falsy, so only a nonzero explicit starting value resets the trace;
`self.transitions` is left as it is. -/
def applyReset (g : FractionGame) (N_0 : Option Int) : FractionGame :=
  match N_0 with
  | some v => if v ≠ 0 then { g with N := [v] } else g
  | none => g

/-- The `while self.N[-1] is not 0` loop of `run` (CPython interns
small integers, so `is not 0` behaves as `!= 0` on `int` values).
After a step, `if len(self.N) + 1 > max_steps` appends a final `0`;
the loop condition then fails at once, so returning directly is the
same unfolding of the `while`. -/
def runLoop (max_steps : Nat) (g : FractionGame) : Except Unit FractionGame :=
  if lastEntry g.N = 0 then .ok g
  else
    match h : run_step g with
    | .error e => .error e
    | .ok g' =>
      if g'.N.length + 1 > max_steps then .ok { g' with N := g'.N ++ [0] }
      else runLoop max_steps g'
termination_by max_steps - g.N.length
decreasing_by
  have hlen := run_step_length h
  omega

/-- `FractionGame.run` (verbosity dropped; `max_steps` defaults to 100
at call sites). -/
def run (g : FractionGame) (N_0 : Option Int) (max_steps : Nat) :
    Except Unit FractionGame :=
  runLoop max_steps (applyReset g N_0)

/-- `registers[factor] = 0` for every key of one factor dictionary. -/
def addRegisters (regs : List (Nat × Nat)) (factors : List (Nat × Nat)) :
    List (Nat × Nat) :=
  factors.foldl (fun r kv => dictSet r kv.1 0) regs

/-- The `for i, f in enumerate(self.f)` loop of `get_registers`,
carrying the accumulated dictionary. -/
def get_registersLoop (regs : List (Nat × Nat)) :
    List (Int × Int) → Except Unit (List (Nat × Nat))
  | [] => .ok regs
  | fr :: rest => do
    let numF ← factorizeZ fr.1
    let regs1 := addRegisters regs numF
    let denF ← factorizeZ fr.2
    get_registersLoop (addRegisters regs1 denF) rest

/-- `FractionGame.get_registers`: every prime factor of every numerator
and denominator becomes a key with value `0`. -/
def get_registers (f : List (Int × Int)) : Except Unit (List (Nat × Nat)) :=
  get_registersLoop [] f

/-- Python values, as far as the constructor's `type(...)` checks can
tell them apart. -/
inductive PyVal where
  | int (n : Int)
  | bool (b : Bool)
  | float
  | str (s : String)
  | none
  | tuple (elems : List PyVal)

/-- `type(x) is int` (false for `bool`, which is its own type). -/
def isInt : PyVal → Bool
  | .int _ => true
  | _ => false

/-- A value passing all three per-fraction checks of `__init__`:
a tuple, of length 2, with both components `int`. -/
def isIntPair : PyVal → Bool
  | .tuple [.int _, .int _] => true
  | _ => false

/-- The three per-fraction `RuntimeError` checks of `__init__`, in
source order: tuple, length 2, integer numerator, integer denominator. -/
def checkFraction : PyVal → Except String (Int × Int)
  | .tuple l =>
    if l.length ≠ 2 then .error "Each fraction must be a pair of ints"
    else
      match l with
      | [.int a, .int b] => .ok (a, b)
      | [.int _, _] => .error "Denominator is not an int"
      | _ => .error "Numerator is not an int"
  | _ => .error "fractions must be tuples"

/-- The `for frac in args` validation loop of `__init__`: first failing
check wins. -/
def checkFractions : List PyVal → Except String (List (Int × Int))
  | [] => .ok []
  | v :: rest =>
    match checkFraction v with
    | .error e => .error e
    | .ok fr =>
      match checkFractions rest with
      | .error e => .error e
      | .ok frs => .ok (fr :: frs)

/-- How construction can fail: a `RuntimeError` from the explicit type
checks (the spec's ConfigurationError), or the `TypeError` that
`get_registers` hits when `factorize` is fed a negative value. -/
inductive InitError where
  | config (msg : String)
  | typeErr
deriving DecidableEq

/-- `FractionGame.__init__`: check `N_0`, check every fraction, then
assign `self.f`, `self.N = [N_0]`, `self.transitions = []` and compute
`self.registers = self.get_registers()` (whose value is derived, so the
structure does not store it; only its possible failure is kept). -/
def initGame (args : List PyVal) (N_0 : PyVal) : Except InitError FractionGame :=
  match N_0 with
  | .int n0 =>
    match checkFractions args with
    | .error m => .error (.config m)
    | .ok fracs =>
      match get_registers fracs with
      | .error _ => .error .typeErr
      | .ok _ => .ok { f := fracs, N := [n0], transitions := [] }
  | _ => .error (.config "Starting value N_0 must be integer")

/-- One line appended by `python_equivalent`, kept structured: each
constructor is one `python_program.append(...)` site of the source,
carrying the data interpolated into that line's text. -/
inductive PyLine where
  | startComment
  | registersInit
  | registerSet (factor value : Nat)
  | mainLoopComment
  | counterInit
  | whileHeader
  | counterIncr
  | ifHeader (conds : List (Nat × Nat)) (i : Nat) (fr : Int × Int)
  | elseHeader (i : Nat) (fr : Int × Int)
  | elifHeader (conds : List (Nat × Nat)) (i : Nat) (fr : Int × Int)
  | clearRegisters
  | registerDec (factor amount : Nat)
  | registerInc (factor amount : Nat)
  | elseFinal
  | printLine
  | ifCounter (max_steps : Nat)
  | breakLine
deriving DecidableEq, Repr

/-- The kind of one alternative of the emitted conditional chain. -/
inductive HKind where
  | hIf
  | hElif
  | hElse
deriving DecidableEq, Repr

/-- Which lines open an alternative of the emitted `if`/`elif`/`else`
chain. -/
def headerOf : PyLine → Option HKind
  | .ifHeader _ _ _ => some .hIf
  | .elifHeader _ _ _ => some .hElif
  | .elseHeader _ _ => some .hElse
  | .elseFinal => some .hElse
  | _ => Option.none

/-- The conditional chain of an emitted program, in order. -/
def chainOf (lines : List PyLine) : List HKind := lines.filterMap headerOf

/-- Tail of a well-formed chain after its `if`: any number of `elif`s,
then at most one final `else`. -/
def validTail : List HKind → Bool
  | [] => true
  | [.hElse] => true
  | .hElif :: rest => validTail rest
  | _ => false

/-- Python's grammar for an alternative chain: one `if`, then `elif`s,
with `else` allowed only as the final alternative. -/
def validChain : List HKind → Bool
  | .hIf :: rest => validTail rest
  | _ => false

/-- Which header the source emits for fraction `i`: `if` for the first
fraction, `else` for a later fraction with denominator 1, `elif`
otherwise. -/
def headerKindOf (i : Nat) (fr : Int × Int) : HKind :=
  if i = 0 then .hIf else if fr.2 = 1 then .hElse else .hElif

/-- The body lines for one fraction: `registers.clear()` when the
numerator is 0, otherwise the denominator decrements followed by the
numerator increments. -/
def emitBody (numF denF : List (Nat × Nat)) (num : Int) : List PyLine :=
  if num = 0 then [.clearRegisters]
  else (denF.map fun kv => .registerDec kv.1 kv.2) ++
    (numF.map fun kv => .registerInc kv.1 kv.2)

/-- The lines emitted for fraction `i` inside the main loop of
`python_equivalent`: a header chosen as in lines 106-112 of the source,
then the body. -/
def emitFraction (i : Nat) (fr : Int × Int) : Except Unit (List PyLine) := do
  let numF ← factorizeZ fr.1
  let denF ← factorizeZ fr.2
  let header : PyLine :=
    if i = 0 then .ifHeader denF i fr
    else if fr.2 = 1 then .elseHeader i fr
    else .elifHeader denF i fr
  pure (header :: emitBody numF denF fr.1)

/-- The `for i, f in enumerate(self.f)` emission loop. -/
def emitAll (i : Nat) : List (Int × Int) → Except Unit (List PyLine)
  | [] => pure []
  | fr :: rest => do
    let l ← emitFraction i fr
    let ls ← emitAll (i + 1) rest
    pure (l ++ ls)

/-- The value of the local `endloop` after the emission loop: it is
reset to `False` at the top of every iteration, so only the last
fraction decides it — true exactly when the last fraction was emitted
as an `else` (a later-than-first fraction with denominator 1). -/
def endloopFlag (f : List (Int × Int)) : Bool :=
  match f.getLast? with
  | Option.none => false
  | some fr => decide (2 ≤ f.length ∧ fr.2 = 1)

/-- Insert into an ascending list, for `sorted(registers.keys())`. -/
def insertSorted (x : Nat) : List Nat → List Nat
  | [] => [x]
  | y :: ys => if x ≤ y then x :: y :: ys else y :: insertSorted x ys

/-- `sorted(...)` on keys. -/
def sortNat (l : List Nat) : List Nat := l.foldr insertSorted []

/-- `FractionGame.python_equivalent`, emitting structured lines.  The
source takes `self.registers` (a first call sees exactly
`get_registers self.f`), overlays the factorization of `self.N[0]`,
prints one `registers[k] = v` line per sorted key, then emits the main
loop, the per-fraction alternatives, a fallback `else` clearing the
registers unless `endloop` was left set, and the trailing print / step
cap lines.  An empty program reads the never-assigned `endloop` and
raises `NameError`; a negative value reaching `factorize` raises
`TypeError`; both are the error case. -/
def python_equivalent (g : FractionGame) (max_steps : Nat) :
    Except Unit (List PyLine) := do
  let regs0 ← get_registers g.f
  let n0 ← match g.N.head? with
    | some v => pure v
    | Option.none => Except.error ()
  let N_0_factors ← factorizeZ n0
  let registers := N_0_factors.foldl (fun r kv => dictSet r kv.1 kv.2) regs0
  let startLines : List PyLine :=
    [.startComment, .registersInit] ++
    ((sortNat (dictKeys registers)).map fun k =>
      .registerSet k (dictGetD registers k 0)) ++
    [.mainLoopComment, .counterInit, .whileHeader, .counterIncr]
  let fracLines ← emitAll 0 g.f
  if g.f = [] then Except.error ()
  else
    let tailLines : List PyLine :=
      (if endloopFlag g.f then [] else [.elseFinal, .clearRegisters]) ++
      [.printLine, .ifCounter max_steps, .breakLine]
    pure (startLines ++ fracLines ++ tailLines)

/-- The conditional chain of the program emitted for `g`, when emission
succeeds. -/
def chainResult (g : FractionGame) (max_steps : Nat) : Option (List HKind) :=
  (python_equivalent g max_steps).toOption.map chainOf

/-- The header kinds the emission loop produces from position `i` on. -/
def headerChain (i : Nat) : List (Int × Int) → List HKind
  | [] => []
  | fr :: rest => headerKindOf i fr :: headerChain (i + 1) rest

theorem divideOutAux_spec (i : Nat) (hi : 2 ≤ i) :
    ∀ fuel a, 0 < a → a ≤ fuel →
      0 < (divideOutAux i fuel a).2 ∧
      a = i ^ (divideOutAux i fuel a).1 * (divideOutAux i fuel a).2 ∧
      ¬ i ∣ (divideOutAux i fuel a).2 := by
  intro fuel
  induction fuel with
  | zero => intro a ha hle; omega
  | succ fuel ih =>
    intro a ha hle
    unfold divideOutAux
    by_cases hg : 2 ≤ i ∧ 0 < a ∧ a % i = 0
    · simp only [if_pos hg]
      have hdvd : i ∣ a := Nat.dvd_of_mod_eq_zero hg.2.2
      have hia : i ≤ a := Nat.le_of_dvd ha hdvd
      have hpos : 0 < a / i := Nat.div_pos hia (by omega)
      have hlt : a / i < a := Nat.div_lt_self ha (by omega)
      obtain ⟨h1, h2, h3⟩ := ih (a / i) hpos (by omega)
      refine ⟨h1, ?_, h3⟩
      have hcancel : i * (a / i) = a := Nat.mul_div_cancel' hdvd
      calc a = i * (a / i) := hcancel.symm
        _ = i * (i ^ (divideOutAux i fuel (a / i)).1 *
              (divideOutAux i fuel (a / i)).2) := by rw [← h2]
        _ = i ^ ((divideOutAux i fuel (a / i)).1 + 1) *
              (divideOutAux i fuel (a / i)).2 := by ring
    · simp only [if_neg hg]
      have hmod : a % i ≠ 0 := fun hm => hg ⟨hi, ha, hm⟩
      have hnd : ¬ (i ∣ a) := fun hd => hmod (Nat.mod_eq_zero_of_dvd hd)
      exact ⟨ha, by simp, hnd⟩

theorem divideOut_spec (i a : Nat) (hi : 2 ≤ i) (ha : 0 < a) :
    0 < (divideOut i a).2 ∧
    a = i ^ (divideOut i a).1 * (divideOut i a).2 ∧
    ¬ i ∣ (divideOut i a).2 :=
  divideOutAux_spec i hi a a ha (Nat.le_refl a)

theorem prodF_dictAddCount (d : List (Nat × Nat)) (k c : Nat) :
    prodF (dictAddCount d k c) = prodF d * k ^ c := by
  induction d with
  | nil => simp [dictAddCount, prodF]
  | cons kv rest ih =>
    unfold dictAddCount
    by_cases hk : kv.1 = k
    · subst hk
      rw [if_pos rfl]
      simp only [prodF, List.map_cons, List.prod_cons]
      ring
    · simp only [if_neg hk, prodF, List.map_cons, List.prod_cons] at ih ⊢
      rw [ih]
      ring

theorem mem_dictAddCount_inv {d : List (Nat × Nat)} {k c : Nat}
    (P : Nat → Prop) (hd : ∀ kv ∈ d, P kv.1 ∧ 1 ≤ kv.2) (hk : P k)
    (hc : 1 ≤ c) : ∀ kv ∈ dictAddCount d k c, P kv.1 ∧ 1 ≤ kv.2 := by
  induction d with
  | nil =>
    intro kv hkv
    simp only [dictAddCount, List.mem_singleton] at hkv
    subst hkv
    exact ⟨hk, hc⟩
  | cons kv0 rest ih =>
    intro kv hkv
    unfold dictAddCount at hkv
    by_cases h0 : kv0.1 = k
    · simp only [if_pos h0, List.mem_cons] at hkv
      rcases hkv with h | h
      · subst h
        exact ⟨h0 ▸ (hd kv0 (List.mem_cons_self _ _)).1,
          Nat.le_add_right_of_le (hd kv0 (List.mem_cons_self _ _)).2⟩
      · exact hd kv (List.mem_cons_of_mem _ h)
    · simp only [if_neg h0, List.mem_cons] at hkv
      rcases hkv with h | h
      · subst h
        exact hd kv (List.mem_cons_self _ _)
      · exact ih (fun x hx => hd x (List.mem_cons_of_mem _ hx)) kv h

theorem mem_keys_dictAddCount (d : List (Nat × Nat)) (k c p : Nat) :
    p ∈ dictKeys (dictAddCount d k c) ↔ p ∈ dictKeys d ∨ p = k := by
  induction d with
  | nil => simp [dictAddCount, dictKeys]
  | cons kv rest ih =>
    unfold dictAddCount
    by_cases h0 : kv.1 = k
    · subst h0
      rw [if_pos rfl]
      simp only [dictKeys, List.map_cons, List.mem_cons]
      tauto
    · rw [if_neg h0]
      simp only [dictKeys, List.map_cons, List.mem_cons] at ih ⊢
      tauto

theorem factorizeAux_spec (count : Nat) :
    ∀ (i a : Nat) (factors : List (Nat × Nat)),
    2 ≤ i → 0 < a →
    (∀ j, 2 ≤ j → j < i → ¬ j ∣ a) →
    (∀ kv ∈ factors, Nat.Prime kv.1 ∧ 1 ≤ kv.2) →
    0 < (factorizeAux count i a factors).1 ∧
    (factorizeAux count i a factors).1 ∣ a ∧
    (∀ j, 2 ≤ j → j < i + count → ¬ j ∣ (factorizeAux count i a factors).1) ∧
    prodF (factorizeAux count i a factors).2 * (factorizeAux count i a factors).1
      = prodF factors * a ∧
    (∀ kv ∈ (factorizeAux count i a factors).2, Nat.Prime kv.1 ∧ 1 ≤ kv.2) := by
  induction count with
  | zero =>
    intro i a factors hi ha hnd hf
    refine ⟨ha, Nat.dvd_refl a, ?_, rfl, hf⟩
    simpa using hnd
  | succ count ih =>
    intro i a factors hi ha hnd hf
    obtain ⟨hr2, hreq, hrnd⟩ := divideOut_spec i a hi ha
    have hr2dvd : (divideOut i a).2 ∣ a := by
      refine ⟨i ^ (divideOut i a).1, ?_⟩
      rw [Nat.mul_comm]
      exact hreq
    have hnd' : ∀ j, 2 ≤ j → j < i + 1 → ¬ j ∣ (divideOut i a).2 := by
      intro j hj2 hji hjd
      rcases Nat.lt_or_ge j i with hlt | hge
      · exact hnd j hj2 hlt (hjd.trans hr2dvd)
      · have : j = i := by omega
        exact hrnd (this ▸ hjd)
    have hf' : ∀ kv ∈ (if (divideOut i a).1 = 0 then factors
        else dictAddCount factors i (divideOut i a).1),
        Nat.Prime kv.1 ∧ 1 ≤ kv.2 := by
      by_cases hc : (divideOut i a).1 = 0
      · rw [if_pos hc]; exact hf
      · rw [if_neg hc]
        have hidvd : i ∣ a := by
          rw [hreq]
          exact Dvd.dvd.mul_right
            (dvd_pow_self i hc) _
        have hip : Nat.Prime i := by
          rw [Nat.prime_def_lt']
          exact ⟨hi, fun m hm2 hmi hmd => hnd m hm2 hmi (hmd.trans hidvd)⟩
        exact mem_dictAddCount_inv Nat.Prime hf hip (by omega)
    have hmain := ih (i + 1) (divideOut i a).2
      (if (divideOut i a).1 = 0 then factors
        else dictAddCount factors i (divideOut i a).1)
      (by omega) hr2 hnd' hf'
    have hunfold : factorizeAux (count + 1) i a factors
        = factorizeAux count (i + 1) (divideOut i a).2
          (if (divideOut i a).1 = 0 then factors
            else dictAddCount factors i (divideOut i a).1) := by
      rfl
    rw [hunfold]
    obtain ⟨m1, m2, m3, m4, m5⟩ := hmain
    refine ⟨m1, m2.trans hr2dvd, ?_, ?_, m5⟩
    · intro j hj2 hji
      exact m3 j hj2 (by omega)
    · rw [m4]
      have hpf : prodF (if (divideOut i a).1 = 0 then factors
          else dictAddCount factors i (divideOut i a).1)
          = prodF factors * i ^ (divideOut i a).1 := by
        by_cases hc : (divideOut i a).1 = 0
        · rw [if_pos hc, hc]
          simp
        · rw [if_neg hc, prodF_dictAddCount]
      rw [hpf]
      conv_rhs => rw [hreq]
      ring

theorem factorize_prod {n : Nat} (hn : 1 ≤ n) : prodF (factorize n) = n := by
  obtain ⟨h1, h2, h3, h4, h5⟩ := factorizeAux_spec (isqrt n - 1) 2 n []
    (Nat.le_refl 2) hn (by omega) (by simp)
  unfold factorize factorizeWith
  by_cases hc : 1 < (factorizeAux (isqrt n - 1) 2 n []).1
  · rw [if_pos hc, prodF_dictAddCount, pow_one]
    rw [h4] at *
    simpa [prodF] using h4
  · rw [if_neg hc]
    have : (factorizeAux (isqrt n - 1) 2 n []).1 = 1 := by omega
    rw [this] at h4
    simpa [prodF] using h4

theorem factorizeAux_noop :
    ∀ (count i a : Nat) (factors : List (Nat × Nat)),
    0 < a → (∀ j, i ≤ j → j < i + count → ¬ j ∣ a) →
    factorizeAux count i a factors = (a, factors) := by
  intro count
  induction count with
  | zero =>
    intro i a factors _ _
    rfl
  | succ count ih =>
    intro i a factors ha hnd
    have hndi : ¬ i ∣ a := hnd i (Nat.le_refl i) (by omega)
    have hdo : divideOut i a = (0, a) := by
      obtain ⟨a', rfl⟩ : ∃ a', a = a' + 1 := ⟨a - 1, by omega⟩
      show divideOutAux i (a' + 1) (a' + 1) = (0, a' + 1)
      rw [show divideOutAux i (a' + 1) (a' + 1)
          = (if 2 ≤ i ∧ 0 < a' + 1 ∧ (a' + 1) % i = 0 then
              ((divideOutAux i a' ((a' + 1) / i)).1 + 1,
                (divideOutAux i a' ((a' + 1) / i)).2)
            else (0, a' + 1)) from rfl]
      rw [if_neg (fun hg => hndi (Nat.dvd_of_mod_eq_zero hg.2.2))]
    have hunfold : factorizeAux (count + 1) i a factors
        = factorizeAux count (i + 1) (divideOut i a).2
          (if (divideOut i a).1 = 0 then factors
            else dictAddCount factors i (divideOut i a).1) := rfl
    rw [hunfold, hdo]
    exact ih (i + 1) a factors ha (fun j hj hlt => hnd j (by omega) (by omega))

/-- C8 (code bug evidence): whenever the scan bound handed to the
`factorize` algorithm falls below the least prime factor of a
semiprime, the scan divides nothing out and the composite number
itself is recorded as the single key — a non-prime key with n ≥ 2.
The source's float bound `int(a**0.5)` does fall below the least prime
factor at `a = p * (p + 2)` for the twin primes
`p = 38375638528746689`, where CPython yields `int(a**0.5) = p - 1`,
so `factorize(a)` returns the composite key `a`, contradicting the
claimed key-primality invariant (and the docstring "Get prime factors
of a"). -/
theorem factorizeWith_undershoot (p q bound : Nat) (hp : Nat.Prime p)
    (hq : Nat.Prime q) (hpq : p ≤ q) (hb : bound < p) :
    factorizeWith bound (p * q) = [(p * q, 1)] ∧ ¬ Nat.Prime (p * q) := by
  have hp2 := hp.two_le
  have hq2 := hq.two_le
  have hpos : 0 < p * q := by positivity
  have hnd : ∀ j, 2 ≤ j → j ≤ bound → ¬ j ∣ p * q := by
    intro j hj2 hjb hdvd
    have hj1 : j ≠ 1 := by omega
    have hmf := Nat.minFac_prime hj1
    have hmfd : j.minFac ∣ p * q := (Nat.minFac_dvd j).trans hdvd
    have hmfle : j.minFac ≤ j := Nat.minFac_le (by omega)
    rcases (Nat.Prime.dvd_mul hmf).mp hmfd with hdp | hdq
    · have : j.minFac = p := (Nat.prime_dvd_prime_iff_eq hmf hp).mp hdp
      omega
    · have : j.minFac = q := (Nat.prime_dvd_prime_iff_eq hmf hq).mp hdq
      omega
  have hnoop : factorizeAux (bound - 1) 2 (p * q) [] = (p * q, []) := by
    apply factorizeAux_noop
    · exact hpos
    · intro j hj2 hjlt
      exact hnd j hj2 (by omega)
  constructor
  · unfold factorizeWith
    rw [hnoop]
    rw [if_pos (by nlinarith : (1 : Nat) < p * q)]
    rfl
  · intro hpr
    rcases hpr.eq_one_or_self_of_dvd p ⟨q, rfl⟩ with h1 | hself
    · omega
    · nlinarith

/-- C8 witness: the undershoot mechanism at a small instance — bound 4
is below the least prime factor 5 of 35, so the whole composite 35
becomes the key. -/
theorem factorizeWith_undershoot_witness :
    factorizeWith 4 35 = [(35, 1)] ∧ ¬ Nat.Prime 35 :=
  factorizeWith_undershoot 5 7 4 (by norm_num) (by norm_num) (by norm_num)
    (by norm_num)

theorem scanStep_spec (f : List (Int × Int)) (cur : Int)
    (hpos : ∀ fr ∈ f, fr.2 ≠ 0) :
    (∃ i num den, f[i]? = some (num, den) ∧ num * cur % den = 0 ∧
      (∀ j num' den', j < i → f[j]? = some (num', den') →
        num' * cur % den' ≠ 0) ∧
      scanStep f cur = .ok (some (num * cur / den, i)))
    ∨ ((∀ (j : Nat) num' den', f[j]? = some (num', den') →
        num' * cur % den' ≠ 0) ∧
      scanStep f cur = .ok none) := by
  induction f with
  | nil =>
    right
    refine ⟨?_, rfl⟩
    intro j num' den' hj
    simp at hj
  | cons fr rest ih =>
    obtain ⟨num, den⟩ := fr
    have hden : den ≠ 0 := hpos (num, den) (List.mem_cons_self _ _)
    by_cases h0 : num * cur % den = 0
    · left
      refine ⟨0, num, den, by simp, h0, ?_, ?_⟩
      · intro j num' den' hj
        omega
      · simp [scanStep, hden, h0]
    · have ihr := ih (fun fr hfr => hpos fr (List.mem_cons_of_mem _ hfr))
      have hscan : scanStep ((num, den) :: rest) cur =
          (if den = 0 then .error ()
           else if num * cur % den = 0 then .ok (some (num * cur / den, 0))
           else match scanStep rest cur with
             | .error e => .error e
             | .ok Option.none => .ok Option.none
             | .ok (some (v, i)) => .ok (some (v, i + 1))) := rfl
      rw [if_neg hden, if_neg h0] at hscan
      rcases ihr with ⟨i, num1, den1, hget, hdiv, hprev, hres⟩ | ⟨hall, hres⟩
      · left
        refine ⟨i + 1, num1, den1, ?_, hdiv, ?_, ?_⟩
        · simpa using hget
        · intro j num' den' hj hget'
          match j with
          | 0 =>
            simp at hget'
            obtain ⟨rfl, rfl⟩ := hget'
            exact h0
          | j' + 1 =>
            simp at hget'
            exact hprev j' num' den' (by omega) hget'
        · rw [hres] at hscan
          exact hscan
      · right
        refine ⟨?_, by rw [hres] at hscan; exact hscan⟩
        intro j num' den' hget'
        match j with
        | 0 =>
          simp at hget'
          obtain ⟨rfl, rfl⟩ := hget'
          exact h0
        | j' + 1 =>
          simp at hget'
          exact hall j' num' den' hget'

theorem scanStep_err (cur : Int) :
    ∀ (f : List (Int × Int)) (k : Nat) (num : Int),
    f[k]? = some (num, 0) →
    (∀ (j : Nat) num' den', j < k → f[j]? = some (num', den') →
      den' ≠ 0 ∧ num' * cur % den' ≠ 0) →
    scanStep f cur = .error () := by
  intro f
  induction f with
  | nil =>
    intro k num hget
    simp at hget
  | cons fr rest ih =>
    intro k num hget hprev
    obtain ⟨n0, d0⟩ := fr
    match k with
    | 0 =>
      simp at hget
      obtain ⟨rfl, rfl⟩ := hget
      simp [scanStep]
    | k' + 1 =>
      simp at hget
      obtain ⟨hd0, hdiv0⟩ := hprev 0 n0 d0 (by omega) (by simp)
      have hrest : scanStep rest cur = .error () := by
        refine ih k' num hget ?_
        intro j num' den' hj hget'
        exact hprev (j + 1) num' den' (by omega) (by simpa using hget')
      simp only [scanStep, if_neg hd0, if_neg hdiv0, hrest]

theorem run_step_f {g g' : FractionGame} (h : run_step g = .ok g') :
    g'.f = g.f := by
  unfold run_step at h
  split at h
  · exact absurd h (by simp)
  · cases h
    rfl
  · cases h
    rfl

theorem run_step_ok (g : FractionGame) (hf : ∀ fr ∈ g.f, fr.2 ≠ 0) :
    ∃ g', run_step g = .ok g' := by
  rcases scanStep_spec g.f (lastEntry g.N) hf with
    ⟨i, num, den, _, _, _, hres⟩ | ⟨_, hres⟩
  · exact ⟨_, by unfold run_step; rw [hres]⟩
  · exact ⟨_, by unfold run_step; rw [hres]⟩

theorem lastEntry_concat (l : List Int) (x : Int) :
    lastEntry (l ++ [x]) = x := by
  simp [lastEntry]

theorem runLoop_halted {g : FractionGame} (ms : Nat)
    (h : lastEntry g.N = 0) : runLoop ms g = .ok g := by
  rw [runLoop]
  simp [h]

theorem runLoop_halts (ms : Nat) (g : FractionGame)
    (hf : ∀ fr ∈ g.f, fr.2 ≠ 0) :
    ∃ g', runLoop ms g = .ok g' ∧ lastEntry g'.N = 0 := by
  have H : ∀ (fuel : Nat) (g : FractionGame), ms - g.N.length ≤ fuel →
      (∀ fr ∈ g.f, fr.2 ≠ 0) →
      ∃ g', runLoop ms g = .ok g' ∧ lastEntry g'.N = 0 := by
    intro fuel
    induction fuel with
    | zero =>
      intro g hle hf
      rw [runLoop]
      by_cases h0 : lastEntry g.N = 0
      · rw [if_pos h0]
        exact ⟨g, rfl, h0⟩
      · rw [if_neg h0]
        split
        next e heq =>
          obtain ⟨g', hok⟩ := run_step_ok g hf
          rw [heq] at hok
          exact absurd hok (by simp)
        next g' heq =>
          have hlen := run_step_length heq
          have hcap : g'.N.length + 1 > ms := by omega
          rw [if_pos hcap]
          exact ⟨_, rfl, lastEntry_concat _ _⟩
    | succ fuel ih =>
      intro g hle hf
      rw [runLoop]
      by_cases h0 : lastEntry g.N = 0
      · rw [if_pos h0]
        exact ⟨g, rfl, h0⟩
      · rw [if_neg h0]
        split
        next e heq =>
          obtain ⟨g', hok⟩ := run_step_ok g hf
          rw [heq] at hok
          exact absurd hok (by simp)
        next g' heq =>
          have hlen := run_step_length heq
          by_cases hcap : g'.N.length + 1 > ms
          · rw [if_pos hcap]
            exact ⟨_, rfl, lastEntry_concat _ _⟩
          · rw [if_neg hcap]
            have hfg' : ∀ fr ∈ g'.f, fr.2 ≠ 0 := by
              rw [run_step_f heq]
              exact hf
            exact ih g' (by omega) hfg'
  exact H (ms - g.N.length) g (Nat.le_refl _) hf

theorem checkFraction_error_iff (v : PyVal) :
    (∃ m, checkFraction v = .error m) ↔ isIntPair v = false := by
  cases v with
  | int n => simp [checkFraction, isIntPair]
  | bool b => simp [checkFraction, isIntPair]
  | float => simp [checkFraction, isIntPair]
  | str s => simp [checkFraction, isIntPair]
  | none => simp [checkFraction, isIntPair]
  | tuple l =>
    match l with
    | [] => simp [checkFraction, isIntPair]
    | [a] => simp [checkFraction, isIntPair]
    | [a, b] => cases a <;> cases b <;> simp [checkFraction, isIntPair]
    | a :: b :: c :: rest => simp [checkFraction, isIntPair]

theorem checkFractions_error_iff (args : List PyVal) :
    (∃ m, checkFractions args = .error m) ↔
      ∃ v ∈ args, isIntPair v = false := by
  induction args with
  | nil => simp [checkFractions]
  | cons v rest ih =>
    unfold checkFractions
    cases hcf : checkFraction v with
    | error e =>
      simp only []
      constructor
      · intro _
        exact ⟨v, List.mem_cons_self _ _,
          (checkFraction_error_iff v).mp ⟨e, hcf⟩⟩
      · intro _
        exact ⟨e, rfl⟩
    | ok fr =>
      have hv : isIntPair v = true := by
        by_contra hbad
        obtain ⟨m, hm⟩ := (checkFraction_error_iff v).mpr
          (by revert hbad; cases isIntPair v <;> simp)
        rw [hcf] at hm
        exact absurd hm (by simp)
      cases hrest : checkFractions rest with
      | error e =>
        simp only []
        constructor
        · intro _
          obtain ⟨w, hw, hwbad⟩ := ih.mp ⟨e, hrest⟩
          exact ⟨w, List.mem_cons_of_mem _ hw, hwbad⟩
        · intro _
          exact ⟨e, rfl⟩
      | ok frs =>
        simp only []
        constructor
        · intro ⟨m, hm⟩
          exact absurd hm (by simp)
        · intro ⟨w, hw, hwbad⟩
          rcases List.mem_cons.mp hw with rfl | hw'
          · rw [hv] at hwbad
            exact absurd hwbad (by simp)
          · obtain ⟨m, hm⟩ := ih.mpr ⟨w, hw', hwbad⟩
            rw [hm] at hrest
            exact absurd hrest (by simp)

theorem mem_keys_dictSet (d : List (Nat × Nat)) (k v p : Nat) :
    p ∈ dictKeys (dictSet d k v) ↔ p ∈ dictKeys d ∨ p = k := by
  induction d with
  | nil => simp [dictSet, dictKeys]
  | cons kv rest ih =>
    unfold dictSet
    by_cases h0 : kv.1 = k
    · subst h0
      rw [if_pos rfl]
      simp only [dictKeys, List.map_cons, List.mem_cons]
      tauto
    · rw [if_neg h0]
      simp only [dictKeys, List.map_cons, List.mem_cons] at ih ⊢
      tauto

theorem mem_keys_addRegisters (F : List (Nat × Nat)) :
    ∀ (regs : List (Nat × Nat)) (p : Nat),
    p ∈ dictKeys (addRegisters regs F) ↔ p ∈ dictKeys regs ∨ p ∈ dictKeys F := by
  induction F with
  | nil => simp [addRegisters, dictKeys]
  | cons kv rest ih =>
    intro regs p
    unfold addRegisters at ih ⊢
    rw [List.foldl_cons, ih (dictSet regs kv.1 0) p, mem_keys_dictSet]
    simp only [dictKeys, List.map_cons, List.mem_cons]
    tauto

theorem get_registersLoop_spec :
    ∀ (f : List (Int × Int)) (regs : List (Nat × Nat)),
    (∀ fr ∈ f, 0 ≤ fr.1 ∧ 0 ≤ fr.2) →
    ∃ regs', get_registersLoop regs f = .ok regs' ∧
      ∀ p, p ∈ dictKeys regs' ↔ p ∈ dictKeys regs ∨
        ∃ fr ∈ f, p ∈ dictKeys (factorize fr.1.toNat) ∨
          p ∈ dictKeys (factorize fr.2.toNat) := by
  intro f
  induction f with
  | nil =>
    intro regs _
    exact ⟨regs, rfl, by simp⟩
  | cons fr rest ih =>
    intro regs hnn
    have h1 : factorizeZ fr.1 = .ok (factorize fr.1.toNat) := by
      unfold factorizeZ
      rw [if_neg (by have := (hnn fr (List.mem_cons_self _ _)).1; omega)]
    have h2 : factorizeZ fr.2 = .ok (factorize fr.2.toNat) := by
      unfold factorizeZ
      rw [if_neg (by have := (hnn fr (List.mem_cons_self _ _)).2; omega)]
    obtain ⟨regs', hres, hkeys⟩ := ih
      (addRegisters (addRegisters regs (factorize fr.1.toNat))
        (factorize fr.2.toNat))
      (fun x hx => hnn x (List.mem_cons_of_mem _ hx))
    refine ⟨regs', ?_, ?_⟩
    · unfold get_registersLoop
      rw [h1, h2]
      simpa using hres
    · intro p
      rw [hkeys p, mem_keys_addRegisters, mem_keys_addRegisters]
      simp only [List.mem_cons]
      constructor
      · rintro (((hp | hp) | hp) | ⟨x, hx, hpx⟩)
        · exact Or.inl hp
        · exact Or.inr ⟨fr, Or.inl rfl, Or.inl hp⟩
        · exact Or.inr ⟨fr, Or.inl rfl, Or.inr hp⟩
        · exact Or.inr ⟨x, Or.inr hx, hpx⟩
      · rintro (hp | ⟨x, hx | hx, hpx⟩)
        · exact Or.inl (Or.inl (Or.inl hp))
        · subst hx
          rcases hpx with hpx | hpx
          · exact Or.inl (Or.inl (Or.inr hpx))
          · exact Or.inl (Or.inr hpx)
        · exact Or.inr ⟨x, hx, hpx⟩

theorem chainOf_append (a b : List PyLine) :
    chainOf (a ++ b) = chainOf a ++ chainOf b := by
  simp [chainOf]

theorem chainOf_registerSets (l : List Nat) (v : Nat → Nat) :
    chainOf (l.map fun k => PyLine.registerSet k (v k)) = [] := by
  simp [chainOf, List.filterMap_map, headerOf]

theorem chainOf_emitBody (numF denF : List (Nat × Nat)) (num : Int) :
    chainOf (emitBody numF denF num) = [] := by
  unfold emitBody
  by_cases h : num = 0
  · rw [if_pos h]
    simp [chainOf, headerOf]
  · rw [if_neg h]
    rw [chainOf_append]
    simp [chainOf, List.filterMap_map, headerOf]

theorem emitFraction_spec (i : Nat) (fr : Int × Int)
    (hnum : 0 ≤ fr.1) (hden : 0 ≤ fr.2) :
    ∃ L, emitFraction i fr = .ok L ∧ chainOf L = [headerKindOf i fr] := by
  have h1 : factorizeZ fr.1 = .ok (factorize fr.1.toNat) := by
    unfold factorizeZ
    rw [if_neg (by omega)]
  have h2 : factorizeZ fr.2 = .ok (factorize fr.2.toNat) := by
    unfold factorizeZ
    rw [if_neg (by omega)]
  refine ⟨_, by unfold emitFraction; rw [h1, h2]; rfl, ?_⟩
  have hbody := chainOf_emitBody (factorize fr.1.toNat) (factorize fr.2.toNat) fr.1
  unfold headerKindOf
  by_cases hi : i = 0
  · rw [if_pos hi]
    simp only [if_pos hi, chainOf, List.filterMap_cons, headerOf] at *
    rw [hbody]
  · by_cases hd : fr.2 = 1
    · rw [if_neg hi, if_pos hd]
      simp only [if_neg hi, if_pos hd, chainOf, List.filterMap_cons, headerOf] at *
      rw [hbody]
    · rw [if_neg hi, if_neg hd]
      simp only [if_neg hi, if_neg hd, chainOf, List.filterMap_cons, headerOf] at *
      rw [hbody]

theorem emitAll_spec :
    ∀ (fs : List (Int × Int)) (i : Nat),
    (∀ fr ∈ fs, 0 ≤ fr.1 ∧ 0 ≤ fr.2) →
    ∃ L, emitAll i fs = .ok L ∧ chainOf L = headerChain i fs := by
  intro fs
  induction fs with
  | nil =>
    intro i _
    exact ⟨[], rfl, rfl⟩
  | cons fr rest ih =>
    intro i hnn
    obtain ⟨L1, hL1, hc1⟩ := emitFraction_spec i fr
      (hnn fr (List.mem_cons_self _ _)).1 (hnn fr (List.mem_cons_self _ _)).2
    obtain ⟨L2, hL2, hc2⟩ := ih (i + 1)
      (fun x hx => hnn x (List.mem_cons_of_mem _ hx))
    refine ⟨L1 ++ L2, ?_, ?_⟩
    · unfold emitAll
      rw [hL1, hL2]
      rfl
    · rw [chainOf_append, hc1, hc2]
      rfl

theorem headerChain_tailShape :
    ∀ (mids : List (Int × Int)) (i : Nat) (lastF : Int × Int),
    1 ≤ i → (∀ fr ∈ mids, fr.2 ≠ 1) → lastF.2 = 1 →
    headerChain i (mids ++ [lastF]) =
      List.replicate mids.length HKind.hElif ++ [HKind.hElse] := by
  intro mids
  induction mids with
  | nil =>
    intro i lastF hi _ hlast
    simp only [List.nil_append, headerChain, headerKindOf, List.length_nil,
      List.replicate, if_neg (by omega : ¬ i = 0), if_pos hlast]
  | cons m rest ih =>
    intro i lastF hi hmid hlast
    have hm : m.2 ≠ 1 := hmid m (List.mem_cons_self _ _)
    simp only [List.cons_append, headerChain, headerKindOf,
      if_neg (by omega : ¬ i = 0), if_neg hm, List.length_cons]
    rw [show rest.append [lastF] = rest ++ [lastF] from rfl,
      ih (i + 1) lastF (by omega)
      (fun x hx => hmid x (List.mem_cons_of_mem _ hx)) hlast]
    simp [List.replicate_succ]

theorem validTail_replicate (k : Nat) :
    validTail (List.replicate k HKind.hElif ++ [HKind.hElse]) = true := by
  induction k with
  | zero => rfl
  | succ k ih =>
    simpa [List.replicate, validTail] using ih

theorem headerChain_append :
    ∀ (a b : List (Int × Int)) (i : Nat),
    headerChain i (a ++ b) = headerChain i a ++ headerChain (i + a.length) b := by
  intro a
  induction a with
  | nil =>
    intro b i
    simp [headerChain]
  | cons fr rest ih =>
    intro b i
    show headerKindOf i fr :: headerChain (i + 1) (rest ++ b)
        = (headerKindOf i fr :: headerChain (i + 1) rest)
          ++ headerChain (i + (fr :: rest).length) b
    rw [ih b (i + 1)]
    have hlen : i + 1 + rest.length = i + (fr :: rest).length := by
      simp only [List.length_cons]
      omega
    rw [hlen]
    rfl

theorem validTail_else_mid :
    ∀ (l1 : List HKind) (x : HKind) (l2 : List HKind),
    validTail (l1 ++ HKind.hElse :: x :: l2) = false := by
  intro l1
  induction l1 with
  | nil =>
    intro x l2
    rfl
  | cons h rest ih =>
    intro x l2
    cases h with
    | hIf => rfl
    | hElif =>
      show validTail (rest ++ HKind.hElse :: x :: l2) = false
      exact ih x l2
    | hElse =>
      show validTail (HKind.hElse :: (rest ++ HKind.hElse :: x :: l2)) = false
      cases hr : rest ++ HKind.hElse :: x :: l2 with
      | nil => exact absurd hr (by simp)
      | cons a as => rfl

theorem python_equivalent_chain (g : FractionGame) (ms : Nat)
    (hne : g.f ≠ [])
    (hnn : ∀ fr ∈ g.f, 0 ≤ fr.1 ∧ 0 ≤ fr.2)
    (n0 : Int) (hN : g.N.head? = some n0) (hn0 : 0 ≤ n0) :
    ∃ lines, python_equivalent g ms = .ok lines ∧
      chainOf lines = headerChain 0 g.f ++
        (if endloopFlag g.f then [] else [HKind.hElse]) := by
  obtain ⟨regs0, hregs, _⟩ := get_registersLoop_spec g.f [] hnn
  have hgr : get_registers g.f = .ok regs0 := hregs
  have hfz : factorizeZ n0 = .ok (factorize n0.toNat) := by
    unfold factorizeZ
    rw [if_neg (by omega)]
  obtain ⟨L, hL, hcL⟩ := emitAll_spec g.f 0 hnn
  unfold python_equivalent
  rw [hgr, hN]
  simp only [bind, Except.bind, pure, Except.pure]
  rw [hfz]
  simp only [bind, Except.bind, pure, Except.pure]
  rw [hL]
  simp only [bind, Except.bind, pure, Except.pure, if_neg hne]
  refine ⟨_, rfl, ?_⟩
  rw [chainOf_append, chainOf_append, hcL]
  have hstart : chainOf ([PyLine.startComment, PyLine.registersInit] ++
      ((sortNat (dictKeys ((factorize n0.toNat).foldl
          (fun r kv => dictSet r kv.1 kv.2) regs0))).map fun k =>
        PyLine.registerSet k (dictGetD ((factorize n0.toNat).foldl
          (fun r kv => dictSet r kv.1 kv.2) regs0) k 0)) ++
      [PyLine.mainLoopComment, PyLine.counterInit, PyLine.whileHeader,
        PyLine.counterIncr]) = [] := by
    rw [chainOf_append, chainOf_append, chainOf_registerSets]
    simp [chainOf, headerOf]
  rw [hstart]
  by_cases hel : endloopFlag g.f
  · rw [if_pos hel, if_pos hel]
    simp [chainOf, headerOf]
  · rw [if_neg hel, if_neg hel]
    simp [chainOf, headerOf]

theorem runLoop_step {g g' : FractionGame} (ms : Nat)
    (h0 : lastEntry g.N ≠ 0) (hs : run_step g = .ok g')
    (hcap : ¬ g'.N.length + 1 > ms) :
    runLoop ms g = runLoop ms g' := by
  rw [runLoop]
  rw [if_neg h0]
  split
  next e heq =>
    rw [heq] at hs
    exact absurd hs (by simp)
  next g'' heq =>
    rw [heq] at hs
    cases hs
    rw [if_neg hcap]

theorem runLoop_capped {g g' : FractionGame} (ms : Nat)
    (h0 : lastEntry g.N ≠ 0) (hs : run_step g = .ok g')
    (hcap : g'.N.length + 1 > ms) :
    runLoop ms g = .ok { g' with N := g'.N ++ [0] } := by
  rw [runLoop]
  rw [if_neg h0]
  split
  next e heq =>
    rw [heq] at hs
    exact absurd hs (by simp)
  next g'' heq =>
    rw [heq] at hs
    cases hs
    rw [if_pos hcap]

theorem applyReset_f (g : FractionGame) (N_0 : Option Int) :
    (applyReset g N_0).f = g.f := by
  cases N_0 with
  | none => rfl
  | some v =>
    show (if v ≠ 0 then { g with N := [v] } else g : FractionGame).f = g.f
    by_cases hv : v ≠ 0
    · rw [if_pos hv]
    · rw [if_neg hv]

/-- C1: for a valid program (positive denominators), `run_step` scans the
fractions in order; at the first fraction `(num, den)` with
`num * N[-1] % den = 0` it appends `num * N[-1] / den` to the trace and
records that index in `transitions`; if none passes it appends `0` and
records no transition; either way the trace grows by exactly one. -/
theorem run_step_spec (g : FractionGame)
    (hpos : ∀ fr ∈ g.f, 0 < fr.2) :
    ∃ g', run_step g = .ok g' ∧ g'.f = g.f ∧
      g'.N.length = g.N.length + 1 ∧
      ((∃ (i : Nat) (num den : Int), g.f[i]? = some (num, den) ∧
          num * lastEntry g.N % den = 0 ∧
          (∀ (j : Nat) num' den', j < i → g.f[j]? = some (num', den') →
            num' * lastEntry g.N % den' ≠ 0) ∧
          g'.N = g.N ++ [num * lastEntry g.N / den] ∧
          g'.transitions = g.transitions ++ [i])
        ∨ ((∀ (j : Nat) num' den', g.f[j]? = some (num', den') →
            num' * lastEntry g.N % den' ≠ 0) ∧
          g'.N = g.N ++ [0] ∧ g'.transitions = g.transitions)) := by
  have hne : ∀ fr ∈ g.f, fr.2 ≠ 0 := fun fr hfr => by
    have := hpos fr hfr
    omega
  rcases scanStep_spec g.f (lastEntry g.N) hne with
    ⟨i, num, den, hget, hdiv, hprev, hres⟩ | ⟨hall, hres⟩
  · refine ⟨⟨g.f, g.N ++ [num * lastEntry g.N / den],
        g.transitions ++ [i]⟩, ?_, rfl, by simp, ?_⟩
    · unfold run_step
      rw [hres]
    · exact Or.inl ⟨i, num, den, hget, hdiv, hprev, rfl, rfl⟩
  · refine ⟨⟨g.f, g.N ++ [0], g.transitions⟩, ?_, rfl, by simp, ?_⟩
    · unfold run_step
      rw [hres]
    · exact Or.inr ⟨hall, rfl, rfl⟩

/-- C1 witness: the theorem applied to the concrete game
`f = [(3, 2)]`, trace `[2]`. -/
theorem run_step_spec_witness :
    ∃ g', run_step ⟨[(3, 2)], [2], []⟩ = .ok g' := by
  obtain ⟨g', hg', _⟩ := run_step_spec ⟨[(3, 2)], [2], []⟩ (by decide)
  exact ⟨g', hg'⟩

/-- C2 counterexample: `factorize 0` is the empty mapping, whose
product of `prime ^ exponent` is `1`, not `0`, so the round-trip law
fails at `n = 0`. -/
theorem factorize_zero_roundtrip_fails :
    factorize 0 = [] ∧ prodF (factorize 0) = 1 ∧ prodF (factorize 0) ≠ 0 := by
  decide

/-- C2 (amended): the round-trip law `prodF (factorize n) = n` holds for
every n ≥ 1; `factorize 1` is the empty mapping; and `factorize 0`
returns the empty mapping without raising (its product is therefore 1,
not 0). -/
theorem factorize_roundtrip_amended :
    (∀ n : Nat, 1 ≤ n → prodF (factorize n) = n) ∧
    factorize 1 = [] ∧ factorize 0 = [] :=
  ⟨fun _ hn => factorize_prod hn, by decide, by decide⟩

/-- C2 witness: the round-trip law evaluated at 360. -/
theorem factorize_roundtrip_amended_witness :
    prodF (factorize 360) = 360 :=
  factorize_roundtrip_amended.1 360 (by decide)

/-- C3: for a valid program (positive denominators) and a positive step
budget, `run` terminates (it is a total function here, defined by the
decreasing measure `max_steps - len(N)`) and its final trace entry is
always `0`: the loop stops when the last entry is `0`, and once the
trace length reaches the budget it appends `0` and stops. -/
theorem run_terminates_halts (g : FractionGame) (N_0 : Option Int)
    (max_steps : Nat) (hpos : ∀ fr ∈ g.f, 0 < fr.2)
    (hms : 0 < max_steps) :
    ∃ g', run g N_0 max_steps = .ok g' ∧ lastEntry g'.N = 0 := by
  unfold run
  refine runLoop_halts max_steps (applyReset g N_0) ?_
  rw [applyReset_f]
  intro fr hfr
  have := hpos fr hfr
  omega

/-- C3 witness: the program `[(1, 2)]` from 8 with budget 100. -/
theorem run_terminates_halts_witness :
    ∃ g', run ⟨[(1, 2)], [8], []⟩ Option.none 100 = .ok g' ∧
      lastEntry g'.N = 0 :=
  run_terminates_halts ⟨[(1, 2)], [8], []⟩ Option.none 100
    (by decide) (by decide)

/-- C4: the halted state 0 is absorbing: if the trace already ends in
`0`, `run` without an explicit reset returns at once and the engine is
unchanged — the trace is never extended past the `0`. -/
theorem run_halted_absorbing (g : FractionGame) (max_steps : Nat)
    (h : lastEntry g.N = 0) :
    run g Option.none max_steps = .ok g := by
  unfold run applyReset
  exact runLoop_halted max_steps h

/-- C4 witness: a game whose trace ends in 0 is returned unchanged. -/
theorem run_halted_absorbing_witness :
    run ⟨[(3, 2)], [2, 3, 0], [0]⟩ Option.none 100 =
      .ok ⟨[(3, 2)], [2, 3, 0], [0]⟩ :=
  run_halted_absorbing ⟨[(3, 2)], [2, 3, 0], [0]⟩ 100 (by decide)

/-- C5 counterexample: for the program `[(3,2), (5,1), (7,3)]` the
denominator-1 fraction (index 1, not first) is emitted as an `else` at
its own position, and an `elif` (fraction 2) plus the fallback `else`
follow it, so it is not the final alternative and the emitted chain
`if / else / elif / else` is not syntactically valid Python. -/
theorem python_equivalent_else_not_final :
    chainResult ⟨[(3, 2), (5, 1), (7, 3)], [2], []⟩ 100 =
      some [HKind.hIf, HKind.hElse, HKind.hElif, HKind.hElse] ∧
    validChain [HKind.hIf, HKind.hElse, HKind.hElif, HKind.hElse] = false := by
  decide

/-- C5 (amended): a denominator-1 fraction that is not first is emitted
as an unconditional `else` alternative at its own position in the
chain, never moved to the end.  First conjunct: when it is the last
fraction and no other non-first fraction has denominator 1, it is the
final unconditional alternative — no fallback `else` is appended and
the `if`/`elif`*/`else` chain is well formed.  Second conjunct: any
non-first denominator-1 fraction that is followed by further fractions
leaves later alternatives after its `else`, so the emitted chain
violates the host language's conditional grammar. -/
theorem python_equivalent_else_placement :
    (∀ (g : FractionGame) (ms : Nat) (fr0 lastF : Int × Int)
      (mids : List (Int × Int)),
      g.f = fr0 :: mids ++ [lastF] →
      (∀ fr ∈ g.f, 0 ≤ fr.1 ∧ 0 ≤ fr.2) →
      lastF.2 = 1 →
      (∀ fr ∈ mids, fr.2 ≠ 1) →
      ∀ n0 : Int, g.N.head? = some n0 → 0 ≤ n0 →
      ∃ lines, python_equivalent g ms = .ok lines ∧
        chainOf lines = HKind.hIf ::
          (List.replicate mids.length HKind.hElif ++ [HKind.hElse]) ∧
        validChain (chainOf lines) = true ∧
        (chainOf lines).getLast? = some HKind.hElse) ∧
    (∀ (g : FractionGame) (ms : Nat) (fr0 frD x : Int × Int)
      (l1 l2 : List (Int × Int)),
      g.f = fr0 :: l1 ++ frD :: x :: l2 →
      (∀ fr ∈ g.f, 0 ≤ fr.1 ∧ 0 ≤ fr.2) →
      frD.2 = 1 →
      ∀ n0 : Int, g.N.head? = some n0 → 0 ≤ n0 →
      ∃ lines, python_equivalent g ms = .ok lines ∧
        validChain (chainOf lines) = false) := by
  constructor
  · intro g ms fr0 lastF mids hprog hnn hlast hmids n0 hN hn0
    have hne : g.f ≠ [] := by
      rw [hprog]
      simp
    have hflag : endloopFlag g.f = true := by
      unfold endloopFlag
      rw [hprog]
      rw [show (fr0 :: mids ++ [lastF]) = (fr0 :: mids) ++ [lastF] from rfl,
        List.getLast?_concat]
      simp [hlast]
    obtain ⟨lines, hlines, hchain⟩ :=
      python_equivalent_chain g ms hne hnn n0 hN hn0
    rw [hflag] at hchain
    simp only [if_true, List.append_nil] at hchain
    have hshape : headerChain 0 g.f =
        HKind.hIf :: (List.replicate mids.length HKind.hElif ++ [HKind.hElse]) := by
      rw [hprog]
      show HKind.hIf :: headerChain 1 (mids ++ [lastF]) = _
      rw [headerChain_tailShape mids 1 lastF (Nat.le_refl 1) hmids hlast]
    rw [hshape] at hchain
    refine ⟨lines, hlines, hchain, ?_, ?_⟩
    · rw [hchain]
      show validTail (List.replicate mids.length HKind.hElif ++ [HKind.hElse]) = true
      exact validTail_replicate mids.length
    · rw [hchain]
      rw [show HKind.hIf :: (List.replicate mids.length HKind.hElif ++ [HKind.hElse])
          = (HKind.hIf :: List.replicate mids.length HKind.hElif) ++ [HKind.hElse]
        from rfl]
      exact List.getLast?_concat _
  · intro g ms fr0 frD x l1 l2 hprog hnn hden n0 hN hn0
    have hne : g.f ≠ [] := by
      rw [hprog]
      simp
    obtain ⟨lines, hlines, hchain⟩ :=
      python_equivalent_chain g ms hne hnn n0 hN hn0
    refine ⟨lines, hlines, ?_⟩
    have hfrD : headerKindOf (1 + l1.length) frD = HKind.hElse := by
      unfold headerKindOf
      rw [if_neg (by omega), if_pos hden]
    have hfr0 : headerKindOf 0 fr0 = HKind.hIf := by
      unfold headerKindOf
      rw [if_pos rfl]
    have hexp : headerChain (1 + l1.length) (frD :: x :: l2)
        = HKind.hElse :: headerKindOf (1 + l1.length + 1) x ::
          headerChain (1 + l1.length + 2) l2 := by
      show headerKindOf (1 + l1.length) frD ::
        headerKindOf (1 + l1.length + 1) x ::
        headerChain (1 + l1.length + 2) l2 = _
      rw [hfrD]
    have hshape : headerChain 0 g.f = HKind.hIf ::
        (headerChain 1 l1 ++ HKind.hElse ::
          headerKindOf (1 + l1.length + 1) x ::
          headerChain (1 + l1.length + 2) l2) := by
      rw [hprog]
      show headerKindOf 0 fr0 :: headerChain 1 (l1 ++ frD :: x :: l2) = _
      rw [hfr0, headerChain_append l1 (frD :: x :: l2) 1, hexp]
    rw [hchain, hshape, List.cons_append]
    show validTail ((headerChain 1 l1 ++ HKind.hElse ::
      headerKindOf (1 + l1.length + 1) x ::
      headerChain (1 + l1.length + 2) l2) ++
      (if endloopFlag g.f then [] else [HKind.hElse])) = false
    rw [List.append_assoc, List.cons_append, List.cons_append]
    exact validTail_else_mid _ _ _

/-- C5 witness: the first conjunct applied to the program
`[(3, 2), (5, 1)]`, whose final fraction has denominator 1. -/
theorem python_equivalent_else_placement_witness :
    ∃ lines, python_equivalent ⟨[(3, 2), (5, 1)], [2], []⟩ 100 = .ok lines ∧
      validChain (chainOf lines) = true := by
  obtain ⟨lines, h1, _, h3, _⟩ :=
    python_equivalent_else_placement.1 ⟨[(3, 2), (5, 1)], [2], []⟩ 100
      (3, 2) (5, 1) [] rfl (by decide) rfl (by simp) 2 rfl (by decide)
  exact ⟨lines, h1, h3⟩

/-- C7: construction raises the configuration `RuntimeError` exactly
when the starting value is not an `int`, some argument is not a tuple
of length 2, or a numerator or denominator is not an `int`; the checks
all precede any state assignment, so a failed construction builds no
engine (the `Except` value carries no game).  A later failure inside
`get_registers` (negative fraction values) is a different error kind
(`typeErr`), not a configuration error. -/
theorem init_config_iff (args : List PyVal) (N_0 : PyVal) :
    (∃ m, initGame args N_0 = .error (.config m)) ↔
      (isInt N_0 = false ∨ ∃ v ∈ args, isIntPair v = false) := by
  cases N_0 with
  | int n0 =>
    have hunfold : initGame args (PyVal.int n0) =
        (match checkFractions args with
          | .error m => Except.error (InitError.config m)
          | .ok fracs =>
            match get_registers fracs with
            | .error _ => Except.error InitError.typeErr
            | .ok _ => Except.ok ⟨fracs, [n0], []⟩) := rfl
    rw [hunfold]
    cases hcf : checkFractions args with
    | error m =>
      simp only []
      constructor
      · intro _
        exact Or.inr ((checkFractions_error_iff args).mp ⟨m, hcf⟩)
      · intro _
        exact ⟨m, rfl⟩
    | ok fracs =>
      have hgood : ∀ v ∈ args, isIntPair v = true := by
        intro v hv
        by_contra hbad
        obtain ⟨m, hm⟩ := (checkFractions_error_iff args).mpr
          ⟨v, hv, by revert hbad; cases isIntPair v <;> simp⟩
        rw [hm] at hcf
        exact absurd hcf (by simp)
      have hrhs : ¬ (isInt (PyVal.int n0) = false ∨
          ∃ v ∈ args, isIntPair v = false) := by
        intro h
        rcases h with h | ⟨v, hv, hbad⟩
        · exact absurd h (by simp [isInt])
        · rw [hgood v hv] at hbad
          exact absurd hbad (by simp)
      show (∃ m, (match get_registers fracs with
          | .error _ => Except.error InitError.typeErr
          | .ok _ => Except.ok (FractionGame.mk fracs [n0] []))
            = Except.error (InitError.config m)) ↔
        isInt (PyVal.int n0) = false ∨ ∃ v ∈ args, isIntPair v = false
      cases hgr : get_registers fracs with
      | error e =>
        constructor
        · intro ⟨m, hm⟩
          cases hm
        · intro h
          exact absurd h hrhs
      | ok regs =>
        constructor
        · intro ⟨m, hm⟩
          cases hm
        · intro h
          exact absurd h hrhs
  | bool b =>
    constructor
    · intro _
      exact Or.inl rfl
    · intro _
      exact ⟨"Starting value N_0 must be integer", rfl⟩
  | float =>
    constructor
    · intro _
      exact Or.inl rfl
    · intro _
      exact ⟨"Starting value N_0 must be integer", rfl⟩
  | str s =>
    constructor
    · intro _
      exact Or.inl rfl
    · intro _
      exact ⟨"Starting value N_0 must be integer", rfl⟩
  | none =>
    constructor
    · intro _
      exact Or.inl rfl
    · intro _
      exact ⟨"Starting value N_0 must be integer", rfl⟩
  | tuple l =>
    constructor
    · intro _
      exact Or.inl rfl
    · intro _
      exact ⟨"Starting value N_0 must be integer", rfl⟩

/-- C9: construction only type-checks the pair elements, so a fraction
with denominator 0 is accepted; a later step whose scan reaches that
fraction (every earlier fraction has a nonzero denominator and fails
its divisibility test) raises the unguarded `ZeroDivisionError` instead
of skipping the fraction or halting. -/
theorem den_zero_accepted_then_step_errors :
    (initGame [PyVal.tuple [PyVal.int 1, PyVal.int 0]] (PyVal.int 2) =
      .ok ⟨[(1, 0)], [2], []⟩) ∧
    (∀ (g : FractionGame) (k : Nat) (num : Int),
      g.f[k]? = some (num, 0) →
      (∀ (j : Nat) num' den', j < k → g.f[j]? = some (num', den') →
        den' ≠ 0 ∧ num' * lastEntry g.N % den' ≠ 0) →
      run_step g = .error ()) := by
  constructor
  · rfl
  · intro g k num hget hprev
    have hscan := scanStep_err (lastEntry g.N) g.f k num hget hprev
    unfold run_step
    rw [hscan]

/-- C9 witness: the game built with the single fraction `(1, 0)`
errors on its first step. -/
theorem den_zero_accepted_then_step_errors_witness :
    run_step ⟨[(1, 0)], [2], []⟩ = .error () :=
  den_zero_accepted_then_step_errors.2 ⟨[(1, 0)], [2], []⟩ 0 1 (by decide)
    (fun j _ _ hj _ => absurd hj (Nat.not_lt_zero j))

/-- C10: `run` with a nonzero explicit starting value replaces the
trace by the one-element list `[N_0]` but keeps the accumulated
`transitions` (the run then continues from that state); with `0` or
`None` no reset happens at all (`if N_0:` is falsy for both).  The
concrete third part shows the resulting mismatch: after a halted run of
`[(1, 2)]` from 8 (trace `[8,4,2,1,0]`, transitions `[0,0,0]`), calling
`run(4)` yields a 4-entry trace but 5 recorded transitions — no longer
a one-to-one correspondence with the new trace's steps. -/
theorem run_reset_frame :
    (∀ (g : FractionGame) (v : Int) (ms : Nat), v ≠ 0 →
      run g (some v) ms = run ⟨g.f, [v], g.transitions⟩ Option.none ms) ∧
    (∀ (g : FractionGame) (ms : Nat),
      run g (some 0) ms = run g Option.none ms) ∧
    (∃ g1 g2, run ⟨[(1, 2)], [8], []⟩ Option.none 100 = .ok g1 ∧
      g1.N = [8, 4, 2, 1, 0] ∧ g1.transitions = [0, 0, 0] ∧
      run g1 (some 4) 100 = .ok g2 ∧
      g2.N = [4, 2, 1, 0] ∧ g2.transitions = [0, 0, 0, 0, 0] ∧
      g2.N.length = 4 ∧ g2.transitions.length = 5) := by
  refine ⟨?_, ?_, ?_⟩
  · intro g v ms hv
    unfold run
    have h : applyReset g (some v) = ⟨g.f, [v], g.transitions⟩ := by
      show (if v ≠ 0 then { g with N := [v] } else g) = _
      rw [if_pos hv]
    rw [h]
    rfl
  · intro g ms
    unfold run
    have h : applyReset g (some 0) = g := by
      show (if (0 : Int) ≠ 0 then { g with N := [(0 : Int)] } else g) = g
      rw [if_neg (by omega : ¬ (0 : Int) ≠ 0)]
    rw [h]
    rfl
  · have s1 : runLoop 100 ⟨[(1, 2)], [8], []⟩ =
        runLoop 100 ⟨[(1, 2)], [8, 4], [0]⟩ :=
      runLoop_step 100 (by decide) rfl (by decide)
    have s2 : runLoop 100 ⟨[(1, 2)], [8, 4], [0]⟩ =
        runLoop 100 ⟨[(1, 2)], [8, 4, 2], [0, 0]⟩ :=
      runLoop_step 100 (by decide) rfl (by decide)
    have s3 : runLoop 100 ⟨[(1, 2)], [8, 4, 2], [0, 0]⟩ =
        runLoop 100 ⟨[(1, 2)], [8, 4, 2, 1], [0, 0, 0]⟩ :=
      runLoop_step 100 (by decide) rfl (by decide)
    have s4 : runLoop 100 ⟨[(1, 2)], [8, 4, 2, 1], [0, 0, 0]⟩ =
        runLoop 100 ⟨[(1, 2)], [8, 4, 2, 1, 0], [0, 0, 0]⟩ :=
      runLoop_step 100 (by decide) rfl (by decide)
    have s5 : runLoop 100 ⟨[(1, 2)], [8, 4, 2, 1, 0], [0, 0, 0]⟩ =
        .ok ⟨[(1, 2)], [8, 4, 2, 1, 0], [0, 0, 0]⟩ :=
      runLoop_halted 100 (by decide)
    have hrun1 : run ⟨[(1, 2)], [8], []⟩ Option.none 100 =
        .ok ⟨[(1, 2)], [8, 4, 2, 1, 0], [0, 0, 0]⟩ :=
      (s1.trans (s2.trans (s3.trans (s4.trans s5))))
    have t0 : run ⟨[(1, 2)], [8, 4, 2, 1, 0], [0, 0, 0]⟩ (some 4) 100 =
        runLoop 100 ⟨[(1, 2)], [4], [0, 0, 0]⟩ := by
      unfold run
      rw [show applyReset ⟨[(1, 2)], [8, 4, 2, 1, 0], [0, 0, 0]⟩ (some 4) =
        ⟨[(1, 2)], [4], [0, 0, 0]⟩ from by decide]
    have t1 : runLoop 100 ⟨[(1, 2)], [4], [0, 0, 0]⟩ =
        runLoop 100 ⟨[(1, 2)], [4, 2], [0, 0, 0, 0]⟩ :=
      runLoop_step 100 (by decide) rfl (by decide)
    have t2 : runLoop 100 ⟨[(1, 2)], [4, 2], [0, 0, 0, 0]⟩ =
        runLoop 100 ⟨[(1, 2)], [4, 2, 1], [0, 0, 0, 0, 0]⟩ :=
      runLoop_step 100 (by decide) rfl (by decide)
    have t3 : runLoop 100 ⟨[(1, 2)], [4, 2, 1], [0, 0, 0, 0, 0]⟩ =
        runLoop 100 ⟨[(1, 2)], [4, 2, 1, 0], [0, 0, 0, 0, 0]⟩ :=
      runLoop_step 100 (by decide) rfl (by decide)
    have t4 : runLoop 100 ⟨[(1, 2)], [4, 2, 1, 0], [0, 0, 0, 0, 0]⟩ =
        .ok ⟨[(1, 2)], [4, 2, 1, 0], [0, 0, 0, 0, 0]⟩ :=
      runLoop_halted 100 (by decide)
    refine ⟨⟨[(1, 2)], [8, 4, 2, 1, 0], [0, 0, 0]⟩,
      ⟨[(1, 2)], [4, 2, 1, 0], [0, 0, 0, 0, 0]⟩,
      hrun1, rfl, rfl, ?_, rfl, rfl, rfl, rfl⟩
    exact t0.trans (t1.trans (t2.trans (t3.trans t4)))

/-- C10 witness: the reset clause instantiated at a concrete engine and
nonzero starting value 4. -/
theorem run_reset_frame_witness :
    run ⟨[(1, 2)], [8, 4, 2, 1, 0], [0, 0, 0]⟩ (some 4) 100 =
      run ⟨[(1, 2)], [4], [0, 0, 0]⟩ Option.none 100 :=
  run_reset_frame.1 ⟨[(1, 2)], [8, 4, 2, 1, 0], [0, 0, 0]⟩ 4 100 (by decide)
